import Mathlib

/-!
Verification of the price-history core of the portfolio desktop application
(`src/desktop/src-tauri/src/main.rs`).

Modelling conventions used throughout this development:

* `f64` values (prices, quantities, ratios) are modelled as exact rationals
  (`ℚ`); the algebraic structure of the code is preserved while IEEE-754
  rounding is abstracted away.
* `chrono::NaiveDate` is modelled as an integer day number (`Int`), with
  day 0 = 1970-01-01 (a Thursday), so the weekday index with Monday = 0 is
  `(d + 3) % 7` and Saturday/Sunday are indices 5 and 6.  Date comparison and
  day arithmetic (`num_days`) coincide with this model, and `%Y-%m-%d`
  formatting is an order-preserving bijection, so formatted date strings are
  represented by the day number itself.
* Rust `i32` casts from `f64` (`as i32`) saturate at the type bounds; this is
  modelled explicitly by `satI32`.  `str::parse::<i32>` fails on overflow,
  modelled by a range check.
* `HashMap::values()` iteration is modelled as a list in arbitrary order (the
  code sorts those lists immediately afterwards).
* External library functions that do not affect the verified logic
  (chrono timestamp-to-date conversion, chrono date-string parsing) are taken
  as function parameters of the embedded definitions.
-/

namespace Portfolio

/-! ### String helpers (Rust `str::starts_with`, `str::contains`, `str::trim`) -/

/-- Bool test that `p` is a leading segment of `s` (Rust `str::starts_with`). -/
def isPfxChars : List Char → List Char → Bool
  | [], _ => true
  | _ :: _, [] => false
  | a :: as, b :: bs => a == b && isPfxChars as bs

/-- Bool test that `p` occurs contiguously inside `s` (Rust `str::contains`). -/
def hasSubChars (p : List Char) : List Char → Bool
  | [] => p.isEmpty
  | c :: rest => isPfxChars p (c :: rest) || hasSubChars p rest

def strStarts (s p : String) : Bool := isPfxChars p.data s.data

def strHasSub (s p : String) : Bool := hasSubChars p.data s.data

/-- Rust `str::trim`: strip leading and trailing whitespace. -/
def trimChars (cs : List Char) : List Char :=
  ((cs.dropWhile (fun c => c.isWhitespace)).reverse.dropWhile (fun c => c.isWhitespace)).reverse

def strTrim (s : String) : String := String.mk (trimChars s.data)

/-! ### Data model: `PriceRecordEntry` (main.rs lines 38-50) -/

structure PriceRecordEntry where
  symbol : String
  date : Int
  close : ℚ
  «open» : Option ℚ
  high : Option ℚ
  low : Option ℚ
  volume : Option ℚ
  adjusted_close : Option ℚ
  split_unadjusted_close : Option ℚ
  source : String
deriving DecidableEq

/-! ### Price Store merge (`ensure_history_for_symbol`, main.rs lines 512-527)

The merge loop: for each fetched record, if an entry with the same date
already exists it is overwritten wholesale, otherwise the record is pushed;
afterwards the series is sorted descending by date. -/

/-- Overwrite the first entry whose date equals `r.date` with `r`
(`entries.iter_mut().find(|e| e.date == record.date)` followed by
`*existing = record`). -/
def replaceFirstByDate : List PriceRecordEntry → PriceRecordEntry → List PriceRecordEntry
  | [], _ => []
  | e :: es, r => if e.date == r.date then r :: es else e :: replaceFirstByDate es r

/-- One iteration of the merge loop of `ensure_history_for_symbol`. -/
def insertRecord (entries : List PriceRecordEntry) (r : PriceRecordEntry) :
    List PriceRecordEntry :=
  if entries.any (fun e => e.date == r.date) then replaceFirstByDate entries r
  else entries ++ [r]

/-- `entries.sort_by(|a, b| b.date.cmp(&a.date))`: stable sort, newest first. -/
def sortByDateDesc (entries : List PriceRecordEntry) : List PriceRecordEntry :=
  List.insertionSort (fun a b => b.date ≤ a.date) entries

/-- The merge of `ensure_history_for_symbol` (lines 512-527): guarded by
`!new_records.is_empty()`, each new record replaces a same-date entry or is
appended, and the series is re-sorted descending by date. -/
def mergeRecords (existing newRecords : List PriceRecordEntry) : List PriceRecordEntry :=
  if newRecords.isEmpty then existing
  else sortByDateDesc (newRecords.foldl insertRecord existing)

/-- Strict `Option` alternative (Rust's left-biased "first some wins"). -/
def optOr {α : Type} (a b : Option α) : Option α :=
  match a with
  | some x => some x
  | none => b

/-- Last new record carrying date `d` (the record that wins under
last-write-wins when several fetched records share a date). -/
def lastNewAt (news : List PriceRecordEntry) (d : Int) : Option PriceRecordEntry :=
  (news.filter (fun r => r.date == d)).getLast?

/-! ### Lemmas about the merge loop -/

lemma map_date_replaceFirst (es : List PriceRecordEntry) (r : PriceRecordEntry)
    (h : es.any (fun e => e.date == r.date) = true) :
    (replaceFirstByDate es r).map (·.date) = es.map (·.date) := by
  induction es with
  | nil => simp at h
  | cons e tl ih =>
    by_cases hd : e.date = r.date
    · simp [replaceFirstByDate, hd]
    · have h' : tl.any (fun e => e.date == r.date) = true := by
        simp only [List.any_cons, Bool.or_eq_true, beq_iff_eq] at h
        rcases h with h | h
        · exact absurd h hd
        · exact h
      simp [replaceFirstByDate, hd, ih h']

lemma find?_replaceFirst (es : List PriceRecordEntry) (r : PriceRecordEntry) (d : Int)
    (h : es.any (fun e => e.date == r.date) = true) :
    (replaceFirstByDate es r).find? (fun e => e.date == d) =
      if r.date = d then some r else es.find? (fun e => e.date == d) := by
  induction es with
  | nil => simp at h
  | cons e tl ih =>
    by_cases he : e.date = r.date
    · have hstep : replaceFirstByDate (e :: tl) r = r :: tl := by
        simp [replaceFirstByDate, he]
      rw [hstep]
      by_cases hrd : r.date = d
      · rw [List.find?_cons_of_pos _ (by simp [hrd]), if_pos hrd]
      · rw [List.find?_cons_of_neg _ (by simp [hrd]), if_neg hrd,
          List.find?_cons_of_neg _ (by simp [he, hrd])]
    · have hstep : replaceFirstByDate (e :: tl) r = e :: replaceFirstByDate tl r := by
        simp [replaceFirstByDate, he]
      rw [hstep]
      have h' : tl.any (fun e => e.date == r.date) = true := by
        simp only [List.any_cons, Bool.or_eq_true, beq_iff_eq] at h
        rcases h with h | h
        · exact absurd h he
        · exact h
      by_cases hed : e.date = d
      · have hrd : r.date ≠ d := fun hh => he (by rw [hed, hh])
        rw [List.find?_cons_of_pos _ (by simp [hed]), if_neg hrd,
          List.find?_cons_of_pos _ (by simp [hed])]
      · rw [List.find?_cons_of_neg _ (by simp [hed]), ih h']
        by_cases hrd : r.date = d
        · rw [if_pos hrd, if_pos hrd]
        · rw [if_neg hrd, if_neg hrd, List.find?_cons_of_neg _ (by simp [hed])]

lemma not_any_iff_date_notMem (es : List PriceRecordEntry) (d : Int) :
    es.any (fun e => e.date == d) = false ↔ d ∉ es.map (·.date) := by
  constructor
  · intro h hmem
    rcases List.mem_map.mp hmem with ⟨e, he, hd⟩
    have hcontra : es.any (fun e => e.date == d) = true := by
      rw [List.any_eq_true]
      exact ⟨e, he, by simp [hd]⟩
    rw [h] at hcontra
    exact Bool.false_ne_true hcontra
  · intro h
    by_contra hne
    have h' : es.any (fun e => e.date == d) = true := by
      cases hh : es.any (fun e => e.date == d)
      · exact absurd hh hne
      · rfl
    rcases List.any_eq_true.mp h' with ⟨e, he, hd⟩
    exact h (List.mem_map.mpr ⟨e, he, by simpa using hd⟩)

lemma find?_eq_none_of_not_any (es : List PriceRecordEntry) (d : Int)
    (h : es.any (fun e => e.date == d) = false) :
    es.find? (fun e => e.date == d) = none := by
  apply List.find?_eq_none.mpr
  intro e he
  intro hd
  have hcontra : es.any (fun e => e.date == d) = true := by
    rw [List.any_eq_true]
    exact ⟨e, he, hd⟩
  rw [h] at hcontra
  exact Bool.false_ne_true hcontra

lemma find?_insertRecord (es : List PriceRecordEntry) (r : PriceRecordEntry) (d : Int) :
    (insertRecord es r).find? (fun e => e.date == d) =
      if r.date = d then some r else es.find? (fun e => e.date == d) := by
  unfold insertRecord
  cases hany : es.any (fun e => e.date == r.date)
  · simp only [Bool.false_eq_true, if_false]
    by_cases hrd : r.date = d
    · have : es.find? (fun e => e.date == d) = none := by
        apply find?_eq_none_of_not_any
        rw [← hrd]
        exact hany
      rw [List.find?_append, this]
      simp [hrd]
    · rw [List.find?_append]
      cases hf : es.find? (fun e => e.date == d)
      · simp [hrd, Ne.symm hrd]
      · simp [hf, hrd]
  · simp only [if_true]
    exact find?_replaceFirst es r d hany

lemma getLast?_cons_optOr {α : Type} (a : α) (l : List α) :
    (a :: l).getLast? = optOr l.getLast? (some a) := by
  cases l with
  | nil => simp [optOr]
  | cons b tl =>
    rw [List.getLast?_cons_cons]
    cases hh : (b :: tl).getLast? with
    | none => simp [List.getLast?_cons_cons] at hh
    | some x => simp [optOr]

lemma optOr_assoc {α : Type} (a b c : Option α) :
    optOr (optOr a b) c = optOr a (optOr b c) := by
  cases a <;> simp [optOr]

lemma optOr_some {α : Type} (x : α) (b : Option α) : optOr (some x) b = some x := rfl

lemma optOr_none {α : Type} (b : Option α) : optOr none b = b := rfl

lemma lastNewAt_cons (r : PriceRecordEntry) (l : List PriceRecordEntry) (d : Int) :
    lastNewAt (r :: l) d =
      if r.date = d then optOr (lastNewAt l d) (some r) else lastNewAt l d := by
  unfold lastNewAt
  by_cases hd : r.date = d
  · simp only [List.filter_cons, hd, beq_self_eq_true, if_pos]
    exact getLast?_cons_optOr _ _
  · have hbd : (r.date == d) = false := by simp [hd]
    simp [List.filter_cons, hbd, hd]

lemma find?_foldl_insert (es news : List PriceRecordEntry) (d : Int) :
    ((news.foldl insertRecord es).find? (fun e => e.date == d)) =
      optOr (lastNewAt news d) (es.find? (fun e => e.date == d)) := by
  induction news generalizing es with
  | nil => simp [lastNewAt, optOr]
  | cons r l ih =>
    rw [List.foldl_cons, ih, find?_insertRecord, lastNewAt_cons]
    by_cases hd : r.date = d
    · rw [if_pos hd, if_pos hd, optOr_assoc, optOr_some]
    · rw [if_neg hd, if_neg hd]

lemma map_date_insertRecord_nodup (es : List PriceRecordEntry) (r : PriceRecordEntry)
    (h : (es.map (·.date)).Nodup) : ((insertRecord es r).map (·.date)).Nodup := by
  unfold insertRecord
  cases hany : es.any (fun e => e.date == r.date)
  · simp only [Bool.false_eq_true, if_false, List.map_append, List.map_cons, List.map_nil]
    rw [List.nodup_append]
    refine ⟨h, List.nodup_singleton _, ?_⟩
    intro x hx hx'
    simp only [List.mem_singleton] at hx'
    subst hx'
    exact (not_any_iff_date_notMem es r.date).mp hany hx
  · simp only [if_true]
    rw [map_date_replaceFirst es r hany]
    exact h

lemma toFinset_date_insertRecord (es : List PriceRecordEntry) (r : PriceRecordEntry) :
    ((insertRecord es r).map (·.date)).toFinset =
      ((es.map (·.date)).toFinset) ∪ {r.date} := by
  unfold insertRecord
  cases hany : es.any (fun e => e.date == r.date)
  · simp only [Bool.false_eq_true, if_false, List.map_append, List.toFinset_append]
    simp
  · simp only [if_true]
    rw [map_date_replaceFirst es r hany]
    rcases List.any_eq_true.mp hany with ⟨e, he, hd⟩
    have : r.date ∈ (es.map (·.date)).toFinset := by
      rw [List.mem_toFinset]
      exact List.mem_map.mpr ⟨e, he, by simpa using hd⟩
    rw [Finset.union_eq_left.mpr (by simpa using this)]

lemma toFinset_foldl_insert (es news : List PriceRecordEntry) :
    (((news.foldl insertRecord es).map (·.date)).toFinset) =
      (es.map (·.date)).toFinset ∪ (news.map (·.date)).toFinset := by
  induction news generalizing es with
  | nil => simp
  | cons r l ih =>
    rw [List.foldl_cons, ih, toFinset_date_insertRecord]
    simp only [List.map_cons, List.toFinset_cons]
    rw [Finset.insert_eq]
    ext x
    simp only [Finset.mem_union, Finset.mem_singleton]
    tauto

lemma nodup_foldl_insert (es news : List PriceRecordEntry)
    (h : (es.map (·.date)).Nodup) :
    (((news.foldl insertRecord es).map (·.date))).Nodup := by
  induction news generalizing es with
  | nil => exact h
  | cons r l ih => exact ih _ (map_date_insertRecord_nodup es r h)

lemma find?_eq_some_iff_of_nodup (l : List PriceRecordEntry) (d : Int)
    (hnd : (l.map (·.date)).Nodup) (r : PriceRecordEntry) :
    l.find? (fun e => e.date == d) = some r ↔ (r ∈ l ∧ r.date = d) := by
  induction l with
  | nil => simp
  | cons a tl ih =>
    simp only [List.map_cons, List.nodup_cons] at hnd
    by_cases hd : a.date = d
    · simp only [List.find?_cons, hd, beq_self_eq_true]
      constructor
      · intro h
        have : a = r := by simpa using h
        exact ⟨this ▸ List.mem_cons_self a tl, this ▸ hd⟩
      · rintro ⟨hmem, hrd⟩
        rcases List.mem_cons.mp hmem with hra | hrtl
        · simp [hra]
        · exfalso
          exact hnd.1 (hd ▸ hrd ▸ List.mem_map.mpr ⟨r, hrtl, rfl⟩)
    · have hbd : (a.date == d) = false := by simp [hd]
      simp only [List.find?_cons, hbd]
      rw [ih hnd.2]
      constructor
      · rintro ⟨hmem, hrd⟩
        exact ⟨List.mem_cons_of_mem a hmem, hrd⟩
      · rintro ⟨hmem, hrd⟩
        rcases List.mem_cons.mp hmem with hra | hrtl
        · exact absurd (hra ▸ hrd) hd
        · exact ⟨hrtl, hrd⟩

lemma find?_congr_perm_of_nodup {l₁ l₂ : List PriceRecordEntry} (hp : l₁.Perm l₂)
    (hnd : (l₂.map (·.date)).Nodup) (d : Int) :
    l₁.find? (fun e => e.date == d) = l₂.find? (fun e => e.date == d) := by
  have hnd₁ : (l₁.map (·.date)).Nodup := ((hp.map (·.date)).nodup_iff).mpr hnd
  cases h₂ : l₂.find? (fun e => e.date == d) with
  | some r =>
    have := (find?_eq_some_iff_of_nodup l₂ d hnd r).mp h₂
    exact (find?_eq_some_iff_of_nodup l₁ d hnd₁ r).mpr ⟨hp.mem_iff.mpr this.1, this.2⟩
  | none =>
    cases h₁ : l₁.find? (fun e => e.date == d) with
    | none => rfl
    | some r =>
      have := (find?_eq_some_iff_of_nodup l₁ d hnd₁ r).mp h₁
      have h₂' := (find?_eq_some_iff_of_nodup l₂ d hnd r).mpr ⟨hp.mem_iff.mp this.1, this.2⟩
      rw [h₂] at h₂'
      exact absurd h₂' (by simp)

/-- C1: merging newly fetched records into an existing per-symbol series whose
dates are pairwise distinct yields exactly one record per date: the merged
dates are duplicate-free, the merged size is the cardinality of the union of
the existing and incoming date sets, and the record stored at any date `d` is
the last fetched record dated `d` when one exists (last-write-wins), and the
pre-existing record otherwise. -/
theorem merge_last_write_wins_union (existing news : List PriceRecordEntry)
    (hnd : (existing.map (·.date)).Nodup) :
    ((mergeRecords existing news).map (·.date)).Nodup ∧
    (mergeRecords existing news).length =
      ((existing.map (·.date)).toFinset ∪ (news.map (·.date)).toFinset).card ∧
    ∀ d : Int, (mergeRecords existing news).find? (fun e => e.date == d) =
      optOr (lastNewAt news d) (existing.find? (fun e => e.date == d)) := by
  unfold mergeRecords
  cases hne : news.isEmpty
  · simp only [Bool.false_eq_true, if_false]
    set M := news.foldl insertRecord existing with hM
    have hperm : (sortByDateDesc M).Perm M := List.perm_insertionSort _ M
    have hndM : (M.map (·.date)).Nodup := nodup_foldl_insert existing news hnd
    refine ⟨((hperm.map (·.date)).nodup_iff).mpr hndM, ?_, ?_⟩
    · rw [hperm.length_eq]
      have hlen : M.length = (M.map (·.date)).length := (List.length_map M _).symm
      rw [hlen, ← List.toFinset_card_of_nodup hndM, toFinset_foldl_insert]
    · intro d
      rw [find?_congr_perm_of_nodup hperm hndM d, find?_foldl_insert]
  · have : news = [] := List.isEmpty_iff.mp hne
    subst this
    simp only [if_true]
    refine ⟨hnd, ?_, ?_⟩
    · simp only [List.map_nil, List.toFinset_nil, Finset.union_empty]
      rw [List.toFinset_card_of_nodup hnd, List.length_map]
    · intro d
      simp [lastNewAt, optOr]

/-- Witness for C1 at a concrete series and fetch: existing records on days 1
and 2, fetched records on days 2 and 3. -/
theorem merge_last_write_wins_union_witness :
    (([⟨"A", 1, 10, none, none, none, none, none, none, "manual"⟩,
       ⟨"A", 2, 11, none, none, none, none, none, none, "manual"⟩] :
        List PriceRecordEntry).map (·.date)).Nodup ∧
    (((mergeRecords
        [⟨"A", 1, 10, none, none, none, none, none, none, "manual"⟩,
         ⟨"A", 2, 11, none, none, none, none, none, none, "manual"⟩]
        [⟨"A", 2, 12, none, none, none, none, none, none, "yahoo_finance"⟩,
         ⟨"A", 3, 13, none, none, none, none, none, none, "yahoo_finance"⟩]).map
          (·.date)).Nodup ∧
      (mergeRecords
        [⟨"A", 1, 10, none, none, none, none, none, none, "manual"⟩,
         ⟨"A", 2, 11, none, none, none, none, none, none, "manual"⟩]
        [⟨"A", 2, 12, none, none, none, none, none, none, "yahoo_finance"⟩,
         ⟨"A", 3, 13, none, none, none, none, none, none, "yahoo_finance"⟩]).length =
        ((([⟨"A", 1, 10, none, none, none, none, none, none, "manual"⟩,
            ⟨"A", 2, 11, none, none, none, none, none, none, "manual"⟩] :
             List PriceRecordEntry).map (·.date)).toFinset ∪
          (([⟨"A", 2, 12, none, none, none, none, none, none, "yahoo_finance"⟩,
             ⟨"A", 3, 13, none, none, none, none, none, none, "yahoo_finance"⟩] :
              List PriceRecordEntry).map (·.date)).toFinset).card ∧
      ∀ d : Int,
        (mergeRecords
          [⟨"A", 1, 10, none, none, none, none, none, none, "manual"⟩,
           ⟨"A", 2, 11, none, none, none, none, none, none, "manual"⟩]
          [⟨"A", 2, 12, none, none, none, none, none, none, "yahoo_finance"⟩,
           ⟨"A", 3, 13, none, none, none, none, none, none, "yahoo_finance"⟩]).find?
            (fun e => e.date == d) =
          optOr
            (lastNewAt
              [⟨"A", 2, 12, none, none, none, none, none, none, "yahoo_finance"⟩,
               ⟨"A", 3, 13, none, none, none, none, none, none, "yahoo_finance"⟩] d)
            (([⟨"A", 1, 10, none, none, none, none, none, none, "manual"⟩,
               ⟨"A", 2, 11, none, none, none, none, none, none, "manual"⟩] :
                List PriceRecordEntry).find? (fun e => e.date == d))) := by
  refine ⟨by decide, merge_last_write_wins_union _ _ (by decide)⟩

/-! ### Split Reconciler (`load_price_history_for_symbol`, main.rs lines 1244-1265)
and fetch-time split-unadjusted close (`fetch_yahoo_chunk`, lines 422-429). -/

/-- The factor accumulated by the reconciler loop for a record dated `d`:
starting from `1.0`, `factor *= ratio` for every split event dated strictly
after `d` (`record.date < *split_date`). -/
def adjustFactor (split_events : List (Int × ℚ)) (d : Int) : ℚ :=
  split_events.foldl (fun f s => if d < s.1 then f * s.2 else f) 1

/-- Forward split adjustment of a loaded series: the in-place loop of
`load_price_history_for_symbol`, guarded by `!split_events.is_empty()`.
`close` and the present `open`/`high`/`low` fields are multiplied by the
accumulated factor; all other fields are untouched. -/
def adjustRecordsForSplits (split_events : List (Int × ℚ))
    (records : List PriceRecordEntry) : List PriceRecordEntry :=
  if split_events.isEmpty then records
  else records.map (fun r =>
    let factor := adjustFactor split_events r.date
    { r with close := r.close * factor,
             «open» := r.«open».map (· * factor),
             high := r.high.map (· * factor),
             low := r.low.map (· * factor) })

/-- Fetch-time reconstruction of the split-unadjusted close in
`fetch_yahoo_chunk`: the raw close folded through the ratios of every split
dated strictly after the record's date. -/
def splitUnadjusted (splits_data : List (Int × ℚ)) (close : ℚ) (date : Int) : ℚ :=
  (splits_data.filter (fun s => date < s.1)).foldl (fun price s => price * s.2) close

lemma foldl_adjust_eq_mul_prod (splits : List (Int × ℚ)) (d : Int) (a : ℚ) :
    splits.foldl (fun f s => if d < s.1 then f * s.2 else f) a =
      a * ((splits.filter (fun s => d < s.1)).map (·.2)).prod := by
  induction splits generalizing a with
  | nil => simp
  | cons s tl ih =>
    by_cases hs : d < s.1
    · rw [List.foldl_cons, if_pos hs, ih, List.filter_cons_of_pos (by simp [hs]),
        List.map_cons, List.prod_cons, mul_assoc]
    · rw [List.foldl_cons, if_neg hs, ih, List.filter_cons_of_neg (by simp [hs])]

lemma adjustFactor_eq_prod (splits : List (Int × ℚ)) (d : Int) :
    adjustFactor splits d = ((splits.filter (fun s => d < s.1)).map (·.2)).prod := by
  unfold adjustFactor
  rw [foldl_adjust_eq_mul_prod, one_mul]

lemma foldl_mul_snd (l : List (Int × ℚ)) (a : ℚ) :
    l.foldl (fun price s => price * s.2) a = a * (l.map (·.2)).prod := by
  induction l generalizing a with
  | nil => simp
  | cons s tl ih =>
    simp only [List.foldl_cons, List.map_cons, List.prod_cons]
    rw [ih, mul_assoc]

lemma option_map_mul_one (o : Option ℚ) : o.map (· * 1) = o := by
  cases o <;> simp

lemma adjust_fields_one (r : PriceRecordEntry) :
    ({ r with close := r.close * 1,
              «open» := r.«open».map (· * 1),
              high := r.high.map (· * 1),
              low := r.low.map (· * 1) }) = r := by
  simp [mul_one, option_map_mul_one]

/-- C2: the Split Reconciler multiplies each record's close (and present
open/high/low) by the product of the ratios of exactly those split events
dated strictly after the record's date; with a single 2:1 split dated `D`,
records dated before `D` have these fields doubled and records dated on or
after `D` are unchanged. -/
theorem split_reconciler_forward_adjust (splits : List (Int × ℚ))
    (records : List PriceRecordEntry)
    (hsorted : List.Sorted (fun a b => a.1 ≤ b.1) splits) :
    adjustRecordsForSplits splits records =
      records.map (fun r =>
        let factor := ((splits.filter (fun s => r.date < s.1)).map (·.2)).prod
        { r with close := r.close * factor,
                 «open» := r.«open».map (· * factor),
                 high := r.high.map (· * factor),
                 low := r.low.map (· * factor) }) ∧
    ∀ (D : Int) (recs : List PriceRecordEntry),
      adjustRecordsForSplits [(D, 2)] recs =
        recs.map (fun r =>
          if r.date < D then
            { r with close := r.close * 2,
                     «open» := r.«open».map (· * 2),
                     high := r.high.map (· * 2),
                     low := r.low.map (· * 2) }
          else r) := by
  constructor
  · unfold adjustRecordsForSplits
    cases hse : splits.isEmpty
    · simp only [Bool.false_eq_true, if_false]
      apply List.map_congr_left
      intro r _
      rw [adjustFactor_eq_prod]
    · have : splits = [] := List.isEmpty_iff.mp hse
      subst this
      simp only [if_true, List.filter_nil, List.map_nil, List.prod_nil]
      symm
      calc records.map (fun r =>
            { r with close := r.close * 1,
                     «open» := r.«open».map (· * 1),
                     high := r.high.map (· * 1),
                     low := r.low.map (· * 1) })
          = records.map id := List.map_congr_left (fun r _ => adjust_fields_one r)
        _ = records := List.map_id records
  · intro D recs
    unfold adjustRecordsForSplits
    simp only [List.isEmpty_cons, Bool.false_eq_true, if_false]
    apply List.map_congr_left
    intro r _
    by_cases hr : r.date < D
    · have hf : adjustFactor [(D, 2)] r.date = 2 := by
        simp [adjustFactor, hr]
      simp only [hf, if_pos hr]
    · have hf : adjustFactor [(D, 2)] r.date = 1 := by
        simp [adjustFactor, hr]
      simp only [hf, if_neg hr]
      exact adjust_fields_one r

/-- Witness for C2 at a split list `[(5, 2)]` and a one-record series dated
day 1 with close 3. -/
theorem split_reconciler_forward_adjust_witness :
    (adjustRecordsForSplits [((5 : Int), (2 : ℚ))]
        [⟨"A", 1, 3, some 4, none, none, none, none, none, "manual"⟩] =
      ([⟨"A", 1, 3, some 4, none, none, none, none, none, "manual"⟩] :
          List PriceRecordEntry).map (fun r =>
        let factor :=
          (([((5 : Int), (2 : ℚ))].filter (fun s => r.date < s.1)).map (·.2)).prod
        { r with close := r.close * factor,
                 «open» := r.«open».map (· * factor),
                 high := r.high.map (· * factor),
                 low := r.low.map (· * factor) })) ∧
    adjustRecordsForSplits [((5 : Int), (2 : ℚ))]
        [⟨"A", 1, 3, some 4, none, none, none, none, none, "manual"⟩] =
      ([⟨"A", 1, 3, some 4, none, none, none, none, none, "manual"⟩] :
          List PriceRecordEntry).map (fun r =>
        if r.date < 5 then
          { r with close := r.close * 2,
                   «open» := r.«open».map (· * 2),
                   high := r.high.map (· * 2),
                   low := r.low.map (· * 2) }
        else r) :=
  ⟨(split_reconciler_forward_adjust [((5 : Int), (2 : ℚ))]
      [⟨"A", 1, 3, some 4, none, none, none, none, none, "manual"⟩]
      (by simp)).1,
   (split_reconciler_forward_adjust [((5 : Int), (2 : ℚ))]
      [⟨"A", 1, 3, some 4, none, none, none, none, none, "manual"⟩]
      (by simp)).2 5 [⟨"A", 1, 3, some 4, none, none, none, none, none, "manual"⟩]⟩

/-- C3: the fetcher's split-unadjusted-close derivation equals the
Reconciler's forward adjustment: folding the raw close through the ratios of
the splits dated after the record's date equals multiplying by the
reconciler's accumulated factor, and for one split of ratio `r` at `D` and a
record dated `d0 < D` both produce `rawClose * r`. -/
theorem fetch_unadjusted_matches_reconciler :
    (∀ (splits : List (Int × ℚ)) (close : ℚ) (d : Int),
      splitUnadjusted splits close d = close * adjustFactor splits d) ∧
    ∀ (D : Int) (r rawClose : ℚ) (d0 : Int), d0 < D →
      splitUnadjusted [(D, r)] rawClose d0 = rawClose * r ∧
      ∀ rec : PriceRecordEntry, rec.date = d0 → rec.close = rawClose →
        (adjustRecordsForSplits [(D, r)] [rec]).map (·.close) = [rawClose * r] := by
  constructor
  · intro splits close d
    unfold splitUnadjusted
    rw [foldl_mul_snd, adjustFactor_eq_prod]
  · intro D r rawClose d0 h
    constructor
    · unfold splitUnadjusted
      simp [h]
    · intro rec hdate hclose
      unfold adjustRecordsForSplits
      have hf : adjustFactor [(D, r)] rec.date = r := by
        simp [adjustFactor, hdate, h]
      simp [hf, hclose]

/-- Witness for C3 at one split `(D, r) = (2, 3)` and a raw close `7` dated
day 0. -/
theorem fetch_unadjusted_matches_reconciler_witness :
    ((0 : Int) < 2) ∧
    splitUnadjusted [((2 : Int), (3 : ℚ))] 7 0 = 7 * 3 ∧
    (adjustRecordsForSplits [((2 : Int), (3 : ℚ))]
        [⟨"A", 0, 7, none, none, none, none, none, none, "manual"⟩]).map (·.close) =
      [(7 : ℚ) * 3] :=
  ⟨by decide,
   (fetch_unadjusted_matches_reconciler.2 2 3 7 0 (by decide)).1,
   (fetch_unadjusted_matches_reconciler.2 2 3 7 0 (by decide)).2
     ⟨"A", 0, 7, none, none, none, none, none, none, "manual"⟩ rfl rfl⟩

/-! ### Position Timeline Builder (`build_position_timeline`, main.rs lines 1319-1362)

The output tuples `(String, f64, f64)` carry the price date formatted
`%Y-%m-%d`; formatting is injective on dates, so the date component is
modelled by the day number itself. -/

structure ProcessedTransaction where
  date : Int
  txn_type : String
  quantity : ℚ
  split_ratio : ℚ
  currency : String
deriving DecidableEq

/-- The `match txn.txn_type.as_str()` body of `build_position_timeline`, in
source order: `buy*`/`purchase` adds, `sell*`/`sale` subtracts (clamped at 0),
then any remaining type containing `"split"` multiplies by the split ratio
when it is positive. -/
def applyTxn (shares : ℚ) (txn : ProcessedTransaction) : ℚ :=
  if strStarts txn.txn_type "buy" || txn.txn_type == "purchase" then
    shares + txn.quantity
  else if strStarts txn.txn_type "sell" || txn.txn_type == "sale" then
    if shares - txn.quantity < 0 then 0 else shares - txn.quantity
  else if strHasSub txn.txn_type "split" then
    if 0 < txn.split_ratio then shares * txn.split_ratio else shares
  else shares

/-- The inner `while idx < transactions.len() && transactions[idx].date <=
price.date` loop: consume the leading run of transactions dated on or before
`d`, returning the updated share count and the remaining transactions. -/
def applyPending : ℚ → List ProcessedTransaction → Int → ℚ × List ProcessedTransaction
  | shares, [], _ => (shares, [])
  | shares, t :: ts, d =>
    if t.date ≤ d then applyPending (applyTxn shares t) ts d else (shares, t :: ts)

/-- The outer `for price in prices` loop of `build_position_timeline`. -/
def replayTimeline : ℚ → List ProcessedTransaction → List PriceRecordEntry →
    List (Int × ℚ × ℚ)
  | _, _, [] => []
  | shares, txns, p :: ps =>
    (p.date, p.close, (applyPending shares txns p.date).1) ::
      replayTimeline (applyPending shares txns p.date).1 (applyPending shares txns p.date).2 ps

def build_position_timeline (prices : List PriceRecordEntry)
    (transactions : List ProcessedTransaction) : List (Int × ℚ × ℚ) :=
  if prices.isEmpty then [] else replayTimeline 0 transactions prices

lemma applyPending_eq (s : ℚ) (txns : List ProcessedTransaction) (d : Int) :
    applyPending s txns d =
      ((txns.takeWhile (fun t => t.date ≤ d)).foldl applyTxn s,
       txns.dropWhile (fun t => t.date ≤ d)) := by
  induction txns generalizing s with
  | nil => simp [applyPending]
  | cons t ts ih =>
    by_cases ht : t.date ≤ d
    · have hstep : applyPending s (t :: ts) d = applyPending (applyTxn s t) ts d := by
        simp [applyPending, ht]
      rw [hstep, ih, List.takeWhile_cons, List.dropWhile_cons]
      simp [ht, List.foldl_cons]
    · have hstep : applyPending s (t :: ts) d = (s, t :: ts) := by
        simp [applyPending, ht]
      rw [hstep, List.takeWhile_cons, List.dropWhile_cons]
      simp [ht]

lemma takeWhile_eq_filter_of_sorted (txns : List ProcessedTransaction) (d : Int)
    (h : List.Pairwise (fun a b : ProcessedTransaction => a.date ≤ b.date) txns) :
    txns.takeWhile (fun t => t.date ≤ d) = txns.filter (fun t => t.date ≤ d) := by
  induction txns with
  | nil => rfl
  | cons t ts ih =>
    obtain ⟨h1, h2⟩ := List.pairwise_cons.mp h
    by_cases ht : t.date ≤ d
    · rw [List.takeWhile_cons_of_pos (by simp [ht]),
        List.filter_cons_of_pos (by simp [ht]), ih h2]
    · rw [List.takeWhile_cons_of_neg (by simp [ht]),
        List.filter_cons_of_neg (by simp [ht])]
      symm
      rw [List.filter_eq_nil_iff]
      intro b hb
      have : t.date ≤ b.date := h1 b hb
      simp only [decide_eq_true_eq]
      intro hbd
      exact ht (le_trans this hbd)

lemma filter_le_split_sorted (txns : List ProcessedTransaction) (d d' : Int)
    (hdd : d ≤ d') :
    txns.filter (fun t => t.date ≤ d') =
      txns.takeWhile (fun t => t.date ≤ d) ++
        (txns.dropWhile (fun t => t.date ≤ d)).filter (fun t => t.date ≤ d') := by
  conv_lhs => rw [← List.takeWhile_append_dropWhile (fun t => decide (t.date ≤ d)) txns]
  rw [List.filter_append]
  congr 1
  rw [List.filter_eq_self]
  intro a ha
  have := List.mem_takeWhile_imp ha
  simp only [decide_eq_true_eq] at this ⊢
  exact le_trans this hdd

lemma pairwise_dropWhile {r : ProcessedTransaction → ProcessedTransaction → Prop}
    (p : ProcessedTransaction → Bool) (txns : List ProcessedTransaction)
    (h : List.Pairwise r txns) : List.Pairwise r (txns.dropWhile p) :=
  List.Pairwise.sublist (List.dropWhile_sublist p) h

lemma replay_eq_map (prices : List PriceRecordEntry)
    (txns : List ProcessedTransaction) (s : ℚ)
    (hp : List.Pairwise (fun a b : PriceRecordEntry => a.date ≤ b.date) prices)
    (ht : List.Pairwise (fun a b : ProcessedTransaction => a.date ≤ b.date) txns) :
    replayTimeline s txns prices =
      prices.map (fun p =>
        (p.date, p.close, (txns.filter (fun t => t.date ≤ p.date)).foldl applyTxn s)) := by
  induction prices generalizing s txns with
  | nil => rfl
  | cons p ps ih =>
    obtain ⟨hp1, hp2⟩ := List.pairwise_cons.mp hp
    have hdrop : List.Pairwise (fun a b : ProcessedTransaction => a.date ≤ b.date)
        (txns.dropWhile (fun t => t.date ≤ p.date)) :=
      pairwise_dropWhile _ txns ht
    simp only [replayTimeline, applyPending_eq, List.map_cons]
    congr 1
    · rw [takeWhile_eq_filter_of_sorted txns p.date ht]
    · rw [ih _ _ hp2 hdrop]
      apply List.map_congr_left
      intro q hq
      have hpq : p.date ≤ q.date := hp1 q hq
      rw [filter_le_split_sorted txns p.date q.date hpq, List.foldl_append,
        takeWhile_eq_filter_of_sorted txns p.date ht]

lemma replay_proj (prices : List PriceRecordEntry)
    (txns : List ProcessedTransaction) (s : ℚ) :
    (replayTimeline s txns prices).map (fun q => (q.1, q.2.1)) =
      prices.map (fun r => (r.date, r.close)) := by
  induction prices generalizing s txns with
  | nil => rfl
  | cons p ps ih => simp only [replayTimeline, List.map_cons, ih]

lemma isPfx_head (a : Char) (as bs : List Char) (h : isPfxChars (a :: as) bs = true) :
    ∃ tl, bs = a :: tl := by
  cases bs with
  | nil => simp [isPfxChars] at h
  | cons b tl =>
    simp only [isPfxChars, Bool.and_eq_true, beq_iff_eq] at h
    exact ⟨tl, by rw [← h.1]⟩

lemma sellish_not_buyish (ty : String)
    (h : (strStarts ty "sell" || ty == "sale") = true) :
    (strStarts ty "buy" || ty == "purchase") = false := by
  have h' : strStarts ty "sell" = true ∨ ty = "sale" := by simpa using h
  rcases h' with h1 | h1
  · have h1' : isPfxChars ('s' :: ['e', 'l', 'l']) ty.data = true := h1
    obtain ⟨tl, hty⟩ := isPfx_head 's' ['e', 'l', 'l'] ty.data h1'
    have hb : strStarts ty "buy" = false := by
      show isPfxChars ('b' :: ['u', 'y']) ty.data = false
      rw [hty]
      simp [isPfxChars]
    have hp : (ty == "purchase") = false := by
      cases hq : ty == "purchase"
      · rfl
      · exfalso
        have hteq : ty = "purchase" := eq_of_beq hq
        rw [hteq] at hty
        have hpc : "purchase".data = 'p' :: ['u', 'r', 'c', 'h', 'a', 's', 'e'] := rfl
        rw [hpc] at hty
        have : ('p' : Char) = 's' := ((List.cons.injEq _ _ _ _).mp hty).1
        exact absurd this (by decide)
    rw [hb, hp]
    rfl
  · subst h1
    decide

/-- C6 (amended): with ascending prices and transactions, the timeline emits,
for each price date, the close together with the share count obtained by
folding every transaction dated on or before that date through the
transaction-type rules; the rules are applied with the source's match
precedence — `buy*`/`purchase` adds quantity, otherwise `sell*`/`sale`
subtracts with a floor at zero, otherwise a type containing `"split"`
multiplies by the split ratio (a ratio `≤ 0` is treated as 1).  The spec's
example `[buy 10, sell 4]` over closes 100 and 120 yields
`[(2020-01-01, 100, 10), (2020-06-01, 120, 6)]` (days 18262 and 18414). -/
theorem timeline_replay_semantics :
    (∀ (prices : List PriceRecordEntry) (txns : List ProcessedTransaction),
      List.Pairwise (fun a b : PriceRecordEntry => a.date ≤ b.date) prices →
      List.Pairwise (fun a b : ProcessedTransaction => a.date ≤ b.date) txns →
      build_position_timeline prices txns =
        prices.map (fun p =>
          (p.date, p.close, (txns.filter (fun t => t.date ≤ p.date)).foldl applyTxn 0))) ∧
    (∀ (s : ℚ) (t : ProcessedTransaction),
      (strStarts t.txn_type "buy" || t.txn_type == "purchase") = true →
      applyTxn s t = s + t.quantity) ∧
    (∀ (s : ℚ) (t : ProcessedTransaction),
      (strStarts t.txn_type "sell" || t.txn_type == "sale") = true →
      applyTxn s t = if s - t.quantity < 0 then 0 else s - t.quantity) ∧
    (∀ (s : ℚ) (t : ProcessedTransaction),
      (strStarts t.txn_type "buy" || t.txn_type == "purchase") = false →
      (strStarts t.txn_type "sell" || t.txn_type == "sale") = false →
      strHasSub t.txn_type "split" = true →
      applyTxn s t = s * (if 0 < t.split_ratio then t.split_ratio else 1)) ∧
    build_position_timeline
      [⟨"AAPL", 18262, 100, none, none, none, none, none, none, "manual"⟩,
       ⟨"AAPL", 18414, 120, none, none, none, none, none, none, "manual"⟩]
      [⟨18262, "buy", 10, 1, "USD"⟩, ⟨18414, "sell", 4, 1, "USD"⟩] =
      [(18262, 100, 10), (18414, 120, 6)] := by
  have hmain : ∀ (prices : List PriceRecordEntry) (txns : List ProcessedTransaction),
      List.Pairwise (fun a b : PriceRecordEntry => a.date ≤ b.date) prices →
      List.Pairwise (fun a b : ProcessedTransaction => a.date ≤ b.date) txns →
      build_position_timeline prices txns =
        prices.map (fun p =>
          (p.date, p.close, (txns.filter (fun t => t.date ≤ p.date)).foldl applyTxn 0)) := by
    intro prices txns hp ht
    unfold build_position_timeline
    cases hpe : prices.isEmpty
    · rw [if_neg (by simp)]
      exact replay_eq_map prices txns 0 hp ht
    · have : prices = [] := List.isEmpty_iff.mp hpe
      subst this
      rfl
  have hbuy : ∀ (s : ℚ) (t : ProcessedTransaction),
      (strStarts t.txn_type "buy" || t.txn_type == "purchase") = true →
      applyTxn s t = s + t.quantity := by
    intro s t hc
    unfold applyTxn
    rw [if_pos hc]
  have hsell : ∀ (s : ℚ) (t : ProcessedTransaction),
      (strStarts t.txn_type "sell" || t.txn_type == "sale") = true →
      applyTxn s t = if s - t.quantity < 0 then 0 else s - t.quantity := by
    intro s t hc
    unfold applyTxn
    rw [if_neg (by simp [sellish_not_buyish t.txn_type hc]), if_pos hc]
  have hsplit : ∀ (s : ℚ) (t : ProcessedTransaction),
      (strStarts t.txn_type "buy" || t.txn_type == "purchase") = false →
      (strStarts t.txn_type "sell" || t.txn_type == "sale") = false →
      strHasSub t.txn_type "split" = true →
      applyTxn s t = s * (if 0 < t.split_ratio then t.split_ratio else 1) := by
    intro s t hb hs hsp
    unfold applyTxn
    rw [if_neg (by simp [hb]), if_neg (by simp [hs]), if_pos hsp]
    by_cases hr : 0 < t.split_ratio
    · rw [if_pos hr, if_pos hr]
    · rw [if_neg hr, if_neg hr, mul_one]
  refine ⟨hmain, hbuy, hsell, hsplit, ?_⟩
  rw [hmain _ _ (by simp [List.pairwise_cons]) (by simp [List.pairwise_cons])]
  have hf1 : ([⟨18262, "buy", 10, 1, "USD"⟩, ⟨18414, "sell", 4, 1, "USD"⟩] :
      List ProcessedTransaction).filter (fun t => t.date ≤ (18262 : Int)) =
      [⟨18262, "buy", 10, 1, "USD"⟩] := by
    simp [List.filter]
  have hf2 : ([⟨18262, "buy", 10, 1, "USD"⟩, ⟨18414, "sell", 4, 1, "USD"⟩] :
      List ProcessedTransaction).filter (fun t => t.date ≤ (18414 : Int)) =
      [⟨18262, "buy", 10, 1, "USD"⟩, ⟨18414, "sell", 4, 1, "USD"⟩] := by
    simp [List.filter]
  have ha : applyTxn 0 ⟨18262, "buy", 10, 1, "USD"⟩ = 0 + 10 :=
    hbuy 0 ⟨18262, "buy", 10, 1, "USD"⟩ (by decide)
  have hb : applyTxn (0 + 10) ⟨18414, "sell", 4, 1, "USD"⟩ =
      if (0 + 10 : ℚ) - 4 < 0 then 0 else (0 + 10 : ℚ) - 4 :=
    hsell (0 + 10) ⟨18414, "sell", 4, 1, "USD"⟩ (by decide)
  simp only [List.map_cons, List.map_nil, hf1, hf2, List.foldl_cons, List.foldl_nil,
    ha, hb]
  norm_num

/-- Witness for C6 at ascending concrete inputs, exercising each hypothesis:
the replay characterization on the example series, and each transaction-type
rule at a concrete transaction. -/
theorem timeline_replay_semantics_witness :
    build_position_timeline
        [⟨"X", 1, 50, none, none, none, none, none, none, "manual"⟩]
        [⟨1, "buy", 2, 1, "USD"⟩] =
      ([⟨"X", 1, 50, none, none, none, none, none, none, "manual"⟩] :
          List PriceRecordEntry).map (fun p =>
        (p.date, p.close,
          (([⟨1, "buy", 2, 1, "USD"⟩] : List ProcessedTransaction).filter
            (fun t => t.date ≤ p.date)).foldl applyTxn 0)) ∧
    applyTxn 5 ⟨1, "buy", 2, 1, "USD"⟩ = 5 + 2 ∧
    applyTxn 5 ⟨1, "sell", 2, 1, "USD"⟩ =
      (if (5 : ℚ) - 2 < 0 then 0 else (5 : ℚ) - 2) ∧
    applyTxn 5 ⟨1, "split", 0, 3, "USD"⟩ = 5 * (if (0 : ℚ) < 3 then 3 else 1) :=
  ⟨timeline_replay_semantics.1 _ _ (by simp [List.pairwise_cons])
      (by simp [List.pairwise_cons]),
   timeline_replay_semantics.2.1 5 ⟨1, "buy", 2, 1, "USD"⟩ (by decide),
   timeline_replay_semantics.2.2.1 5 ⟨1, "sell", 2, 1, "USD"⟩ (by decide),
   timeline_replay_semantics.2.2.2.1 5 ⟨1, "split", 0, 3, "USD"⟩ (by decide) (by decide)
     (by decide)⟩

/-- Counterexample for C6 as stated: the transaction type `"buysplit"`
contains the substring `"split"`, so the claim's split rule demands that it
multiply the running share count (`0 * 3 = 0`), but the source matches
`starts_with("buy")` first and adds the quantity, producing 4 shares. -/
theorem timeline_contains_split_cex :
    strHasSub "buysplit" "split" = true ∧
    build_position_timeline
        [⟨"X", 0, 1, none, none, none, none, none, none, "manual"⟩]
        [⟨0, "buysplit", 4, 3, "USD"⟩] = [(0, 1, 4)] ∧
    ((4 : ℚ) ≠ 0 * 3) := by
  refine ⟨by decide, ?_, by norm_num⟩
  have hc : (strStarts "buysplit" "buy" || ("buysplit" == "purchase")) = true := by decide
  norm_num [build_position_timeline, replayTimeline, applyPending, applyTxn, hc]

/-- C10: the position timeline has exactly one output point per input price
record, in input order, carrying that record's date and close; the
transaction list cannot add, remove or reorder points. -/
theorem timeline_preserves_price_rows (prices : List PriceRecordEntry)
    (txns : List ProcessedTransaction) (hne : prices ≠ []) :
    (build_position_timeline prices txns).length = prices.length ∧
    (build_position_timeline prices txns).map (fun q => (q.1, q.2.1)) =
      prices.map (fun r => (r.date, r.close)) := by
  unfold build_position_timeline
  rw [if_neg (by simp [hne])]
  constructor
  · have := congrArg List.length (replay_proj prices txns 0)
    simpa using this
  · exact replay_proj prices txns 0

/-- Witness for C10 at a one-record series and an arbitrary transaction. -/
theorem timeline_preserves_price_rows_witness :
    (build_position_timeline
        [⟨"X", 7, 9, none, none, none, none, none, none, "manual"⟩]
        [⟨3, "buy", 1, 1, "USD"⟩]).length =
      ([⟨"X", 7, 9, none, none, none, none, none, none, "manual"⟩] :
          List PriceRecordEntry).length ∧
    (build_position_timeline
        [⟨"X", 7, 9, none, none, none, none, none, none, "manual"⟩]
        [⟨3, "buy", 1, 1, "USD"⟩]).map (fun q => (q.1, q.2.1)) =
      ([⟨"X", 7, 9, none, none, none, none, none, none, "manual"⟩] :
          List PriceRecordEntry).map (fun r => (r.date, r.close)) :=
  timeline_preserves_price_rows _ _ (by simp)

/-! ### Symbol Resolver (`get_exchange_and_symbol`, main.rs lines 252-279, and
`yahoo_symbol_for`, lines 281-300) -/

/-- The fixed set of known exchange codes. -/
def knownExchanges : List String :=
  ["NASDAQ", "NYSE", "NYSEARCA", "NYSEAMERICAN", "OTCMKTS", "TWSE", "JPX", "HKEX"]

/-- First half of `stock.splitn(2, ':')`: the characters before the first
colon. -/
def splitnFirst (stock : String) : String :=
  String.mk (stock.data.takeWhile (fun c => !(c == ':')))

/-- Second half of `stock.splitn(2, ':')`: everything after the first colon
(which may itself contain colons). -/
def splitnSecond (stock : String) : String :=
  String.mk ((stock.data.dropWhile (fun c => !(c == ':'))).drop 1)

/-- `get_exchange_and_symbol`: split the ticker on the first colon and test
each side against the known exchange codes; if neither side matches, the
whole string is the base symbol with no exchange. -/
def get_exchange_and_symbol (stock : String) : Option String × String :=
  if !(stock.data.contains ':') then (none, stock)
  else
    let first := splitnFirst stock
    let second := splitnSecond stock
    if knownExchanges.any (fun ex => ex == first) then (some first, second)
    else if knownExchanges.any (fun ex => ex == second) then (some second, first)
    else (none, stock)

/-- `yahoo_symbol_for`: append the provider-specific suffix per exchange;
US-style or unrecognized exchanges pass the base symbol through. -/
def yahoo_symbol_for (exchange : Option String) (base_symbol : String) : String :=
  match exchange with
  | some "HKEX" => base_symbol ++ ".HK"
  | some "TWSE" | some "TPE" => base_symbol ++ ".TW"
  | some "JPX" | some "TYO" => base_symbol ++ ".T"
  | some "LSE" => base_symbol ++ ".L"
  | some "ASX" => base_symbol ++ ".AX"
  | some "TSX" => base_symbol ++ ".TO"
  | some "FRA" => base_symbol ++ ".F"
  | some "PAR" => base_symbol ++ ".PA"
  | some "AMS" => base_symbol ++ ".AS"
  | some "STO" => base_symbol ++ ".ST"
  | some "KRX" | some "KSE" => base_symbol ++ ".KS"
  | some "KOSDAQ" => base_symbol ++ ".KQ"
  | some "NYSE" | some "NASDAQ" | some "NYSEARCA" | some "NYSEAMERICAN"
  | some "OTCMKTS" => base_symbol
  | _ => base_symbol

/-- C7: `"NASDAQ:AAPL"` resolves to exchange NASDAQ, base AAPL, provider
symbol AAPL; `"2330:TWSE"` resolves to exchange TWSE, base 2330, provider
symbol 2330.TW; and a ticker containing a colon where neither side is a known
exchange code resolves to the whole string with no exchange. -/
theorem symbol_resolution_examples_and_fallback :
    (get_exchange_and_symbol "NASDAQ:AAPL" = (some "NASDAQ", "AAPL") ∧
      yahoo_symbol_for (some "NASDAQ") "AAPL" = "AAPL") ∧
    (get_exchange_and_symbol "2330:TWSE" = (some "TWSE", "2330") ∧
      yahoo_symbol_for (some "TWSE") "2330" = "2330.TW") ∧
    ∀ stock : String, stock.data.contains ':' = true →
      knownExchanges.any (fun ex => ex == splitnFirst stock) = false →
      knownExchanges.any (fun ex => ex == splitnSecond stock) = false →
      get_exchange_and_symbol stock = (none, stock) := by
  refine ⟨⟨by decide, by decide⟩, ⟨by decide, by decide⟩, ?_⟩
  intro stock hc h1 h2
  unfold get_exchange_and_symbol
  rw [hc]
  simp only [Bool.not_true, Bool.false_eq_true, if_false, h1, h2, if_false]

/-- Witness for C7's fallback at the ticker `"FOO:BAR"`, neither side of
which is a known exchange code. -/
theorem symbol_resolution_fallback_witness :
    get_exchange_and_symbol "FOO:BAR" = (none, "FOO:BAR") :=
  symbol_resolution_examples_and_fallback.2.2 "FOO:BAR" (by decide) (by decide) (by decide)

/-! ### Coverage Analyzer (`get_data_coverage`, main.rs lines 1732-1757) -/

/-- Weekend predicate in the day-number model: day 0 = 1970-01-01 is a
Thursday, so the Monday-indexed weekday is `(d + 3) % 7`, with Saturday = 5
and Sunday = 6 (`weekday != Sat && weekday != Sun` in the source). -/
def isWeekendDay (d : Int) : Prop := (d + 3) % 7 = 5 ∨ (d + 3) % 7 = 6

instance (d : Int) : Decidable (isWeekendDay d) := by
  unfold isWeekendDay
  infer_instance

/-- `let total_days = (today - start_date).num_days() as i32`: the raw
calendar-day difference. -/
def coverage_total_days (today start_date : Int) : Int := today - start_date

/-- `n` steps of the `while current <= today` loop body, starting at `cur`. -/
def dayRangeAux : Int → Nat → List Int
  | _, 0 => []
  | cur, n + 1 => cur :: dayRangeAux (cur + 1) n

/-- The inclusive day sequence walked by the `while current <= today` loop. -/
def dayRange (start today : Int) : List Int :=
  dayRangeAux start (today - start + 1).toNat

/-- The `missing` counter: days of `[start, today]` that are not Saturday or
Sunday and are absent from the stored price-date set. -/
def coverage_missing_days (today start : Int) (priceDates : List Int) : Int :=
  (((dayRange start today).filter
    (fun d => !(decide (isWeekendDay d)) && !(priceDates.contains d))).length : Int)

/-- `coverage_percent = ((total_days - missing) as f64 / total_days as f64) * 100.0`
when `total_days > 0`, else `0.0`. -/
def coverage_percent (total_days missing : Int) : ℚ :=
  if 0 < total_days then (((total_days - missing : Int) : ℚ) / (total_days : ℚ)) * 100
  else 0

/-- The spec's `totalTradingDays`, stated from the spec's words for comparison
with the code's `coverage_total_days`: the number of calendar days in
`[windowStart, today]` excluding Saturdays and Sundays. -/
def specTotalTradingDays (start today : Int) : Int :=
  (((dayRange start today).filter (fun d => !(decide (isWeekendDay d)))).length : Int)

lemma mem_dayRangeAux (n : Nat) (cur d : Int) :
    d ∈ dayRangeAux cur n ↔ cur ≤ d ∧ d < cur + n := by
  induction n generalizing cur with
  | zero => simp [dayRangeAux]
  | succ m ih =>
    simp only [dayRangeAux, List.mem_cons, ih]
    omega

lemma mem_dayRange (s t d : Int) : d ∈ dayRange s t ↔ s ≤ d ∧ d ≤ t := by
  unfold dayRange
  rw [mem_dayRangeAux]
  omega

lemma nodup_dayRangeAux (n : Nat) (cur : Int) : (dayRangeAux cur n).Nodup := by
  induction n generalizing cur with
  | zero => simp [dayRangeAux]
  | succ m ih =>
    simp only [dayRangeAux, List.nodup_cons]
    refine ⟨?_, ih _⟩
    rw [mem_dayRangeAux]
    omega

lemma nodup_dayRange (s t : Int) : (dayRange s t).Nodup :=
  nodup_dayRangeAux _ _

lemma toFinset_dayRange (s t : Int) : (dayRange s t).toFinset = Finset.Icc s t := by
  ext d
  rw [List.mem_toFinset, mem_dayRange, Finset.mem_Icc]

/-- Counterexample for C5 as stated: over the week from Monday 1970-01-05
(day 4) to Monday 1970-01-12 (day 11), the code's `total_days` is the raw
difference 7, while the number of calendar days in `[4, 11]` excluding
Saturdays and Sundays is 6. -/
theorem coverage_total_days_cex :
    coverage_total_days 11 4 = 7 ∧ specTotalTradingDays 4 11 = 6 ∧ (7 : Int) ≠ 6 := by
  refine ⟨rfl, by decide, by decide⟩

/-- C5 (amended): for a symbol with stored prices and completeness enabled,
`total_days` is the raw day difference `today - windowStart` (weekends
included, so it is not the spec's trading-day count); `missing_days` counts
exactly the non-weekend days of `[windowStart, today]` absent from the stored
price-date set; and `coverage_percent` is `(total - missing) / total * 100`
with 0 for a non-positive total. -/
theorem coverage_computation (start today : Int) (priceDates : List Int) :
    coverage_total_days today start = today - start ∧
    coverage_missing_days today start priceDates =
      (((Finset.Icc start today).filter
        (fun d => ¬ isWeekendDay d ∧ d ∉ priceDates)).card : Int) ∧
    ∀ total missing : Int, coverage_percent total missing =
      if 0 < total then (((total - missing : Int) : ℚ) / (total : ℚ)) * 100 else 0 := by
  refine ⟨rfl, ?_, fun total missing => rfl⟩
  unfold coverage_missing_days
  have hnd := nodup_dayRange start today
  have hfil : ((dayRange start today).filter
      (fun d => !(decide (isWeekendDay d)) && !(priceDates.contains d))).Nodup :=
    hnd.filter _
  rw [← List.toFinset_card_of_nodup hfil, List.toFinset_filter, toFinset_dayRange]
  congr 2
  apply Finset.filter_congr
  intro d _
  simp

/-! ### Ratio parsing (`parse_ratio_components`, main.rs lines 1579-1601) and
split-file loading (`load_split_events`, lines 1288-1316) -/

/-- Numeric value of a list of ASCII digits. -/
def digitsToNat (cs : List Char) : Nat :=
  cs.foldl (fun n c => n * 10 + (c.toNat - 48)) 0

/-- Exact value of an unsigned plain decimal numeral (`digits`, `digits.`,
`digits.digits` or `.digits`), or `none` for any other text.  Models the
plain-decimal fragment of Rust's `f64` parsing with exact rationals;
scientific notation, infinities and NaN are outside the data handled here. -/
def parseUnsignedDec (cs : List Char) : Option ℚ :=
  let intPart := cs.takeWhile (fun c => c.isDigit)
  let rest := cs.dropWhile (fun c => c.isDigit)
  match rest with
  | [] => if intPart.isEmpty then none else some (digitsToNat intPart : ℚ)
  | '.' :: frac =>
    if frac.all (fun c => c.isDigit) && !(intPart.isEmpty && frac.isEmpty) then
      some ((digitsToNat intPart : ℚ) + (digitsToNat frac : ℚ) / (10 ^ frac.length))
    else none
  | _ => none

/-- Signed decimal parse (`str::parse::<f64>` restricted to plain decimals). -/
def parseDecimal (s : String) : Option ℚ :=
  match s.data with
  | [] => none
  | '+' :: rest => parseUnsignedDec rest
  | '-' :: rest => (parseUnsignedDec rest).map (fun q => -q)
  | cs => parseUnsignedDec cs

/-- `str::parse::<i32>`: optional sign, at least one digit, all digits, and
failure (not saturation) outside the `i32` range. -/
def parseI32 (s : String) : Option Int :=
  let core : Option Int :=
    match s.data with
    | [] => none
    | '+' :: rest =>
      if rest.isEmpty || !(rest.all (fun c => c.isDigit)) then none
      else some (digitsToNat rest : Int)
    | '-' :: rest =>
      if rest.isEmpty || !(rest.all (fun c => c.isDigit)) then none
      else some (-(digitsToNat rest : Int))
    | cs =>
      if !(cs.all (fun c => c.isDigit)) then none
      else some (digitsToNat cs : Int)
  core.bind (fun v => if -2147483648 ≤ v ∧ v ≤ 2147483647 then some v else none)

/-- `f64::round`: round half away from zero. -/
def roundHalfAway (q : ℚ) : Int :=
  if q < 0 then -⌊-q + 1 / 2⌋ else ⌊q + 1 / 2⌋

/-- Rust's saturating `as i32` cast applied to a rounded value: clamp to
`[i32::MIN, i32::MAX]`. -/
def satI32 (n : Int) : Int := max (-2147483648) (min 2147483647 n)

/-- `str::split_once(':')`: split at the first colon when one exists. -/
def splitOnceColon (s : String) : Option (String × String) :=
  if s.data.contains ':' then
    some (String.mk (s.data.takeWhile (fun c => !(c == ':'))),
          String.mk ((s.data.dropWhile (fun c => !(c == ':'))).drop 1))
  else none

/-- `parse_ratio_components` (main.rs lines 1579-1601). -/
def parse_ratio_components (ratio : String) : Int × Int :=
  let trimmed := strTrim ratio
  if trimmed.data.isEmpty then (1, 1)
  else
    match splitOnceColon trimmed with
    | some (num_str, den_str) =>
      (max ((parseI32 (strTrim num_str)).getD 1) 1,
       max ((parseI32 (strTrim den_str)).getD 1) 1)
    | none =>
      match parseDecimal trimmed with
      | some value =>
        if 1 < value then (satI32 (roundHalfAway value), 1)
        else if 0 < value then (1, max (satI32 (roundHalfAway (1 / value))) 1)
        else (1, 1)
      | none => (1, 1)

lemma one_le_satI32 (n : Int) (h : 1 ≤ n) : 1 ≤ satI32 n := by
  unfold satI32
  omega

/-- Counterexample for C8 as stated: the textual ratio `"3000000000"` parses
to a value greater than 1, but `round(value) as i32` saturates at
`i32::MAX = 2147483647`, so the result is not `(round(value), 1) =
(3000000000, 1)`. -/
theorem parse_ratio_saturation_cex :
    parse_ratio_components "3000000000" = (2147483647, 1) ∧
    roundHalfAway ((3000000000 : ℕ) : ℚ) = 3000000000 ∧
    ((2147483647 : Int) ≠ 3000000000) := by
  have htrim : strTrim "3000000000" = "3000000000" := rfl
  have hempty : ("3000000000" : String).data.isEmpty = false := rfl
  have hsplit : splitOnceColon "3000000000" = none := rfl
  have hdec : parseDecimal "3000000000" = some ((3000000000 : ℕ) : ℚ) := rfl
  have hround : roundHalfAway ((3000000000 : ℕ) : ℚ) = 3000000000 := by
    unfold roundHalfAway
    rw [if_neg (by norm_num)]
    norm_num
  refine ⟨?_, hround, by decide⟩
  unfold parse_ratio_components
  simp only [htrim, hempty, hsplit, hdec, Bool.false_eq_true, if_false]
  rw [if_pos (by norm_num), hround]
  norm_num [satI32]

/-- C8 (amended): for a trimmed ratio string with no colon that parses as a
decimal value, values greater than 1 yield `(round(value) saturated to the
i32 range, 1)`; values strictly between 0 and 1 yield `(1, round(1/value)
saturated to the i32 range)` (the final `.max(1)` is a no-op there); any
other value, an unparseable string, or an empty trimmed string yields
`(1, 1)`; in particular `"2"` parses to `(2, 1)`, `"0.5"` to `(1, 2)` and
`""` to `(1, 1)`. -/
theorem parse_ratio_heuristic :
    (∀ (s : String) (v : ℚ),
      (strTrim s).data.isEmpty = false →
      splitOnceColon (strTrim s) = none →
      parseDecimal (strTrim s) = some v →
      ((1 < v → parse_ratio_components s = (satI32 (roundHalfAway v), 1)) ∧
       (0 < v → v < 1 →
         parse_ratio_components s = (1, satI32 (roundHalfAway (1 / v)))) ∧
       (v ≤ 0 → parse_ratio_components s = (1, 1)) ∧
       (v = 1 → parse_ratio_components s = (1, 1)))) ∧
    (∀ s : String,
      (strTrim s).data.isEmpty = false →
      splitOnceColon (strTrim s) = none →
      parseDecimal (strTrim s) = none →
      parse_ratio_components s = (1, 1)) ∧
    (∀ s : String, (strTrim s).data.isEmpty = true →
      parse_ratio_components s = (1, 1)) ∧
    parse_ratio_components "2" = (2, 1) ∧
    parse_ratio_components "0.5" = (1, 2) ∧
    parse_ratio_components "" = (1, 1) := by
  have hmain : ∀ (s : String) (v : ℚ),
      (strTrim s).data.isEmpty = false →
      splitOnceColon (strTrim s) = none →
      parseDecimal (strTrim s) = some v →
      ((1 < v → parse_ratio_components s = (satI32 (roundHalfAway v), 1)) ∧
       (0 < v → v < 1 →
         parse_ratio_components s = (1, satI32 (roundHalfAway (1 / v)))) ∧
       (v ≤ 0 → parse_ratio_components s = (1, 1)) ∧
       (v = 1 → parse_ratio_components s = (1, 1))) := by
    intro s v hne hnc hv
    have hbase : parse_ratio_components s =
        (if 1 < v then (satI32 (roundHalfAway v), 1)
         else if 0 < v then (1, max (satI32 (roundHalfAway (1 / v))) 1)
         else (1, 1)) := by
      unfold parse_ratio_components
      simp only [hne, hnc, hv, Bool.false_eq_true, if_false]
    refine ⟨?_, ?_, ?_, ?_⟩
    · intro h1
      rw [hbase, if_pos h1]
    · intro h0 h1
      rw [hbase, if_neg (by linarith), if_pos h0]
      have hinv : 1 < 1 / v := one_lt_one_div h0 h1
      have hfl : 1 ≤ roundHalfAway (1 / v) := by
        unfold roundHalfAway
        rw [if_neg (by linarith)]
        rw [Int.le_floor]
        push_cast
        linarith
      rw [max_eq_left (one_le_satI32 _ hfl)]
    · intro h0
      rw [hbase, if_neg (by linarith), if_neg (by linarith)]
    · intro h1
      subst h1
      rw [hbase, if_neg (by norm_num), if_pos (by norm_num)]
      have : roundHalfAway ((1 : ℚ) / 1) = 1 := by
        unfold roundHalfAway
        rw [if_neg (by norm_num)]
        norm_num
      rw [this]
      norm_num [satI32]
  have hfail : ∀ s : String,
      (strTrim s).data.isEmpty = false →
      splitOnceColon (strTrim s) = none →
      parseDecimal (strTrim s) = none →
      parse_ratio_components s = (1, 1) := by
    intro s hne hnc hvn
    unfold parse_ratio_components
    simp only [hne, hnc, hvn, Bool.false_eq_true, if_false]
  have hemp : ∀ s : String, (strTrim s).data.isEmpty = true →
      parse_ratio_components s = (1, 1) := by
    intro s hse
    unfold parse_ratio_components
    simp only [hse, if_true]
  refine ⟨hmain, hfail, hemp, ?_, ?_, hemp "" rfl⟩
  · have hv : parseDecimal (strTrim "2") = some 2 := by
      have : parseDecimal "2" = some ((2 : ℕ) : ℚ) := rfl
      rw [show strTrim "2" = "2" from rfl, this]
      norm_num
    have h2 := (hmain "2" 2 rfl rfl hv).1 (by norm_num)
    rw [h2]
    have : roundHalfAway (2 : ℚ) = 2 := by
      unfold roundHalfAway
      rw [if_neg (by norm_num)]
      norm_num
    rw [this]
    norm_num [satI32]
  · have hv : parseDecimal (strTrim "0.5") = some (1 / 2) := by
      have : parseDecimal "0.5" =
          some (((0 : ℕ) : ℚ) + ((5 : ℕ) : ℚ) / (10 ^ 1)) := rfl
      rw [show strTrim "0.5" = "0.5" from rfl, this]
      norm_num
    have h2 := ((hmain "0.5" (1 / 2) rfl rfl hv).2.1) (by norm_num) (by norm_num)
    rw [h2]
    have : roundHalfAway ((1 : ℚ) / (1 / 2)) = 2 := by
      unfold roundHalfAway
      rw [if_neg (by norm_num)]
      norm_num
    rw [this]
    norm_num [satI32]

/-- Witness for C8 at the ratio string `"2"`, discharging the hypotheses of
the heuristic branch. -/
theorem parse_ratio_heuristic_witness :
    parse_ratio_components "2" = (satI32 (roundHalfAway 2), 1) :=
  (parse_ratio_heuristic.1 "2" 2 rfl rfl
    (by rw [show strTrim "2" = "2" from rfl,
          show parseDecimal "2" = some ((2 : ℕ) : ℚ) from rfl]
        norm_num)).1 (by norm_num)

/-! ### `load_split_events` (main.rs lines 1288-1316).  The chrono date-string
parser is taken as a parameter `parseDate`; a row is skipped when it has
fewer than 3 fields or its date does not parse. -/

/-- One iteration of the row loop of `load_split_events`: numerator and
denominator each default to 1 on parse failure and are clamped up to at
least 1 individually; the row yields `(date, numerator / denominator)`. -/
def parseSplitRow (parseDate : String → Option Int) (record : List String) :
    Option (Int × ℚ) :=
  if record.length < 3 then none
  else
    match parseDate (strTrim ((record.get? 0).getD "")) with
    | none => none
    | some date =>
      let numerator := max ((((record.get? 1).map strTrim).bind parseDecimal).getD 1) 1
      let denominator := max ((((record.get? 2).map strTrim).bind parseDecimal).getD 1) 1
      if 0 < numerator ∧ 0 < denominator then some (date, numerator / denominator)
      else none

/-- `load_split_events`: collect the parsed rows and sort ascending by date
(`events.sort_by_key(|(date, _)| *date)`). -/
def load_split_events (parseDate : String → Option Int)
    (rows : List (List String)) : List (Int × ℚ) :=
  List.insertionSort (fun a b => a.1 ≤ b.1) (rows.filterMap (parseSplitRow parseDate))

/-- Counterexample for C9 as stated: the row `2024-01-01,-2,4` has a
non-positive numerator, but only that component is clamped to 1 — the row
yields ratio `1/4`, not the claimed 1:1 no-op factor 1. -/
theorem split_row_clamp_cex :
    parseSplitRow (fun _ => some 0) ["2024-01-01", "-2", "4"] = some (0, 1 / 4) ∧
    ((1 : ℚ) / 4 ≠ 1) := by
  constructor
  · have hn : parseDecimal "-2" = some (-((2 : ℕ) : ℚ)) := rfl
    have hd : parseDecimal "4" = some ((4 : ℕ) : ℚ) := rfl
    unfold parseSplitRow
    rw [if_neg (by norm_num)]
    simp only [List.get?, Option.getD_some, Option.map_some', Option.some_bind,
      show strTrim "2024-01-01" = "2024-01-01" from rfl,
      show strTrim "-2" = "-2" from rfl,
      show strTrim "4" = "4" from rfl, hn, hd]
    rw [if_pos (by constructor <;> norm_num)]
    norm_num
  · norm_num

/-- C9 (amended): a split row with at least 3 fields and a parsing date never
fails: each of the numerator and denominator defaults to 1 when unparseable
and is clamped up to 1 when below 1, individually, and the row yields
`(date, numerator/denominator)` — so a row whose numerator AND denominator
are both unparseable or non-positive yields the 1:1 no-op factor 1 (a single
bad component yields `1/other` instead); a textual ratio that fails the
heuristic parse yields `(1,1)`; and rows are processed independently — adding
a (possibly malformed) row only adds that row's event, permuting nothing
else away. -/
theorem split_row_clamping :
    (∀ (parseDate : String → Option Int) (record : List String) (d : Int),
      ¬ record.length < 3 →
      parseDate (strTrim ((record.get? 0).getD "")) = some d →
      parseSplitRow parseDate record =
        some (d,
          max ((((record.get? 1).map strTrim).bind parseDecimal).getD 1) 1 /
            max ((((record.get? 2).map strTrim).bind parseDecimal).getD 1) 1) ∧
      ((((record.get? 1).map strTrim).bind parseDecimal = none ∨
          ∃ x, ((record.get? 1).map strTrim).bind parseDecimal = some x ∧ x ≤ 0) →
        (((record.get? 2).map strTrim).bind parseDecimal = none ∨
          ∃ x, ((record.get? 2).map strTrim).bind parseDecimal = some x ∧ x ≤ 0) →
        parseSplitRow parseDate record = some (d, 1))) ∧
    ∀ (parseDate : String → Option Int) (pre post : List (List String))
      (row : List String) (e : Int × ℚ),
      parseSplitRow parseDate row = some e →
      (load_split_events parseDate (pre ++ row :: post)).Perm
        (e :: load_split_events parseDate (pre ++ post)) := by
  constructor
  · intro parseDate record d h3 hd
    have hbase : parseSplitRow parseDate record =
        some (d,
          max ((((record.get? 1).map strTrim).bind parseDecimal).getD 1) 1 /
            max ((((record.get? 2).map strTrim).bind parseDecimal).getD 1) 1) := by
      unfold parseSplitRow
      rw [if_neg h3, hd]
      dsimp only
      rw [if_pos]
      exact ⟨lt_of_lt_of_le one_pos (le_max_right _ _),
        lt_of_lt_of_le one_pos (le_max_right _ _)⟩
    refine ⟨hbase, ?_⟩
    intro hnum hden
    have hn1 : max ((((record.get? 1).map strTrim).bind parseDecimal).getD 1) 1 = 1 := by
      rcases hnum with h | ⟨x, hx, hx0⟩
      · rw [h]
        simp
      · rw [hx]
        simp only [Option.getD_some]
        exact max_eq_right (by linarith)
    have hd1 : max ((((record.get? 2).map strTrim).bind parseDecimal).getD 1) 1 = 1 := by
      rcases hden with h | ⟨x, hx, hx0⟩
      · rw [h]
        simp
      · rw [hx]
        simp only [Option.getD_some]
        exact max_eq_right (by linarith)
    rw [hbase, hn1, hd1]
    norm_num
  · intro parseDate pre post row e he
    unfold load_split_events
    have h1 : (pre ++ row :: post).filterMap (parseSplitRow parseDate) =
        pre.filterMap (parseSplitRow parseDate) ++
          e :: post.filterMap (parseSplitRow parseDate) := by
      rw [List.filterMap_append, List.filterMap_cons, he]
    have h2 : (pre ++ post).filterMap (parseSplitRow parseDate) =
        pre.filterMap (parseSplitRow parseDate) ++
          post.filterMap (parseSplitRow parseDate) :=
      List.filterMap_append _ _ _
    have p1 : (List.insertionSort (fun a b => a.1 ≤ b.1)
        ((pre ++ row :: post).filterMap (parseSplitRow parseDate))).Perm
        ((pre ++ row :: post).filterMap (parseSplitRow parseDate)) :=
      List.perm_insertionSort _ _
    have p2 : ((pre ++ row :: post).filterMap (parseSplitRow parseDate)).Perm
        (e :: (pre.filterMap (parseSplitRow parseDate) ++
          post.filterMap (parseSplitRow parseDate))) := by
      rw [h1]
      exact List.perm_middle
    have p3 : (e :: (pre.filterMap (parseSplitRow parseDate) ++
        post.filterMap (parseSplitRow parseDate))).Perm
        (e :: List.insertionSort (fun a b => a.1 ≤ b.1)
          ((pre ++ post).filterMap (parseSplitRow parseDate))) := by
      rw [h2]
      exact List.Perm.cons e ((List.perm_insertionSort _ _).symm)
    exact (p1.trans p2).trans p3

/-- Witness for C9: a row whose numerator and denominator are both
unparseable yields the 1:1 event, and inserting that row into a file leaves
the other rows' events intact. -/
theorem split_row_clamping_witness :
    parseSplitRow (fun _ => some 5) ["x", "abc", "def"] = some (5, 1) ∧
    (load_split_events (fun _ => some 5) [["x", "abc", "def"]]).Perm
      ((5, 1) :: load_split_events (fun _ => some 5) []) :=
  ⟨((split_row_clamping.1 (fun _ => some 5) ["x", "abc", "def"] 5 (by norm_num) rfl).2
      (Or.inl rfl) (Or.inl rfl)),
   split_row_clamping.2 (fun _ => some 5) [] [] ["x", "abc", "def"] (5, 1)
     ((split_row_clamping.1 (fun _ => some 5) ["x", "abc", "def"] 5 (by norm_num) rfl).2
       (Or.inl rfl) (Or.inl rfl))⟩

/-! ### Remote History Fetcher (`fetch_yahoo_chunk`, main.rs lines 302-476)

The HTTP layer is abstracted: the model takes the response's success-status
flag and the decoded state of the body (empty text, text that does not decode
as the expected JSON, or a parsed `YahooChartResponse` mirroring the serde
structs of main.rs lines 95-159).  The chrono timestamp-to-date conversion is
the `tsToDate` parameter, and the opaque `meta` JSON blob is a string. -/

structure YahooChartQuote where
  «open» : Option (List (Option ℚ))
  high : Option (List (Option ℚ))
  low : Option (List (Option ℚ))
  close : Option (List (Option ℚ))
  volume : Option (List (Option ℚ))
deriving DecidableEq

structure YahooAdjClose where
  adjclose : Option (List (Option ℚ))
deriving DecidableEq

structure YahooIndicators where
  quote : Option (List YahooChartQuote)
  adjclose : Option (List YahooAdjClose)
deriving DecidableEq

structure YahooDividend where
  date : Int
  amount : ℚ
deriving DecidableEq

structure YahooSplit where
  date : Int
  numerator : ℚ
  denominator : ℚ
deriving DecidableEq

structure YahooEvents where
  dividends : Option (List YahooDividend)
  splits : Option (List YahooSplit)
deriving DecidableEq

structure YahooChartResult where
  meta : Option String
  timestamp : Option (List Int)
  indicators : Option YahooIndicators
  events : Option YahooEvents
deriving DecidableEq

structure YahooError where
  code : Option String
  description : Option String
deriving DecidableEq

structure YahooChartData where
  result : Option (List YahooChartResult)
  error : Option YahooError
deriving DecidableEq

structure YahooChartResponse where
  chart : Option YahooChartData
deriving DecidableEq

/-- State of the response body as `fetch_yahoo_chunk` sees it once the text
has been read. -/
inductive FetchBody where
  | emptyBody : FetchBody
  | invalidJson : FetchBody
  | parsed : YahooChartResponse → FetchBody
deriving DecidableEq

/-- `parsed.chart.and_then(|c| c.result).and_then(|mut r| r.pop())`: the last
element of the result array, when chart and result are present. -/
def poppedResult (p : YahooChartResponse) : Option YahooChartResult :=
  (p.chart.bind (fun c => c.result)).bind List.getLast?

/-- `fetch_yahoo_chunk` from the point the response text is available
(main.rs lines 354-476).  `status` is the HTTP success flag, which the source
binds and logs but never tests. -/
def fetch_yahoo_chunk (tsToDate : Int → Option Int) (status : Bool)
    (body : FetchBody) (canonical_symbol : String) (start endD : Int) :
    Except String (List PriceRecordEntry × List (Int × ℚ) × Option String) :=
  match body with
  | .emptyBody => .error "Empty response from Yahoo Finance"
  | .invalidJson => .error "Invalid Yahoo JSON"
  | .parsed p =>
    match poppedResult p with
    | none => .error "Yahoo response missing result"
    | some result =>
      let timestamps := result.timestamp.getD []
      let splits_data : List (Int × ℚ) :=
        List.insertionSort (fun a b => a.1 ≤ b.1)
          (((result.events.bind (fun e => e.splits)).getD []).filterMap
            (fun sp => (tsToDate sp.date).map
              (fun dt => (dt, sp.numerator / sp.denominator))))
      match result.indicators with
      | none => .error "Yahoo response missing indicators"
      | some indicators =>
        match indicators.quote.bind List.getLast? with
        | none => .error "Yahoo response missing quote values"
        | some quote =>
          let adjcloses :=
            ((indicators.adjclose.bind List.getLast?).bind
              (fun a => a.adjclose)).getD []
          let closes := quote.close.getD []
          let opens := quote.«open».getD []
          let highs := quote.high.getD []
          let lows := quote.low.getD []
          let volumes := quote.volume.getD []
          let records := timestamps.enum.filterMap (fun it =>
            (tsToDate it.2).bind (fun date =>
              if date < start ∨ endD < date then none
              else ((closes.get? it.1).bind id).map (fun close =>
                { symbol := canonical_symbol
                  date := date
                  close := close
                  «open» := (opens.get? it.1).bind id
                  high := (highs.get? it.1).bind id
                  low := (lows.get? it.1).bind id
                  volume := (volumes.get? it.1).bind id
                  adjusted_close := (adjcloses.get? it.1).bind id
                  split_unadjusted_close :=
                    some (splitUnadjusted splits_data close date)
                  source := "yahoo_finance" })))
          let dividends : List (Int × ℚ) :=
            List.insertionSort (fun a b => b.1 ≤ a.1)
              (((result.events.bind (fun e => e.dividends)).getD []).filterMap
                (fun dv => (tsToDate dv.date).bind
                  (fun date => if start ≤ date ∧ date ≤ endD
                    then some (date, dv.amount) else none)))
          .ok (records, dividends, result.meta)

/-- The failure conditions the fetch actually tests, stated from the spec's
words minus the HTTP-status clause: empty body, undecodable JSON, missing
`result`, missing `indicators`, or missing `quote`. -/
def specFetchFailure (body : FetchBody) : Prop :=
  match body with
  | .emptyBody => True
  | .invalidJson => True
  | .parsed p =>
    match poppedResult p with
    | none => True
    | some result =>
      match result.indicators with
      | none => True
      | some indicators => indicators.quote.bind List.getLast? = none

/-- Counterexample for C4 as stated: a response with a non-success HTTP
status (`status = false`) whose body decodes into the expected schema is
accepted — the fetch returns `Ok` with no records, because the source only
logs the status and never tests it. -/
theorem fetch_ignores_status_cex :
    fetch_yahoo_chunk (fun t => some t) false
      (.parsed ⟨some ⟨some [⟨none, none,
        some ⟨some [⟨none, none, none, none, none⟩], none⟩, none⟩], none⟩⟩)
      "AAPL" 0 10 = .ok ([], [], none) := rfl

/-- C4 (amended): for any HTTP status, the decoded fetch fails exactly when
the response body is empty, the JSON does not decode, or the schema is
missing `result`, `indicators`, or `quote`; the HTTP status is never
checked.  Otherwise it returns the decoded records. -/
theorem fetch_error_conditions (tsToDate : Int → Option Int) (status : Bool)
    (body : FetchBody) (canonical_symbol : String) (start endD : Int) :
    (fetch_yahoo_chunk tsToDate status body canonical_symbol start endD).isOk = false ↔
      specFetchFailure body := by
  cases body with
  | emptyBody => simp [fetch_yahoo_chunk, specFetchFailure, Except.isOk, Except.toBool]
  | invalidJson => simp [fetch_yahoo_chunk, specFetchFailure, Except.isOk, Except.toBool]
  | parsed p =>
    unfold fetch_yahoo_chunk specFetchFailure
    cases hr : poppedResult p with
    | none => simp [hr, Except.isOk, Except.toBool]
    | some result =>
      cases hi : result.indicators with
      | none => simp [hr, hi, Except.isOk, Except.toBool]
      | some indicators =>
        cases hq : indicators.quote.bind List.getLast? with
        | none => simp [hr, hi, hq, Except.isOk, Except.toBool]
        | some quote => simp [hr, hi, hq, Except.isOk, Except.toBool]

end Portfolio
